import Mathlib

/-!
Shallow embedding of the `matrix-simple` Rust crate (`src/lib.rs`): a dense
row-major `Matrix<T>` with construction, transpose, row slicing, element
indexing, addition and multiplication.

Modelling conventions:
* `Vec<Vec<T>>` becomes `List (List T)`; struct fields keep their names.
* Rust panics (failed `assert!`, out-of-bounds `Vec` indexing) become `none`
  in an `Option`-valued result; loops that push elements or fold an
  accumulator and may panic inside become `optionMap` / `optionFoldl`.
* `T : Default` becomes `[Inhabited T]` with `Inhabited.default` standing for
  `T::default()`; `Clone` is the identity in a pure setting; `AddAssign`
  becomes `+` applied in the source's operand order; `Mul` becomes `*`.
-/

namespace MatrixSimple

/-- Monadic map over a list in the `Option` monad: models a Rust `for` loop
that pushes one element per iteration and aborts the whole computation
(panics) when any iteration fails. -/
def optionMap {α β : Type} (f : α → Option β) : List α → Option (List β)
  | [] => some []
  | a :: rest => do
    let b ← f a
    let bs ← optionMap f rest
    pure (b :: bs)

/-- Monadic left fold in the `Option` monad: models a Rust loop that updates
an accumulator once per iteration and aborts (panics) when any step fails. -/
def optionFoldl {α β : Type} (f : β → α → Option β) : β → List α → Option β
  | b, [] => some b
  | b, a :: rest => do
    let b2 ← f b a
    optionFoldl f b2 rest

/-- Double indexing `m[i][j]` on a `Vec<Vec<T>>`: `none` models the Rust
out-of-bounds panic. -/
def idx2 {T : Type} (m : List (List T)) (i j : Nat) : Option T :=
  m[i]?.bind fun r => r[j]?

/-- In-place update `m[i][j] = v` on a `Vec<Vec<T>>`; only used at indices
that were just read successfully, so the out-of-range no-op of `List.set`
is never exercised. -/
def set2 {T : Type} (m : List (List T)) (i j : Nat) (v : T) : List (List T) :=
  m.set i ((m.getD i []).set j v)

/-- The `Matrix<T>` struct of `src/lib.rs`: row-major data `m` plus the
`rows` and `cols` fields. The Rust type derives `Clone, Debug, PartialEq, Eq`. -/
structure Matrix (T : Type) where
  m : List (List T)
  rows : Nat
  cols : Nat
deriving DecidableEq, Repr

/-- Embeds `Matrix::new(rows, cols)`: a `rows × cols` matrix filled with
`T::default()`. -/
def Matrix.new {T : Type} [Inhabited T] (rows cols : Nat) : Matrix T :=
  { m := List.replicate rows (List.replicate cols default), rows := rows, cols := cols }

/-- Embeds `impl From<Vec<Vec<T>>> for Matrix<T>` (named `fromVec` because
`from` is a Lean keyword): an empty outer vector gives the `0 × 0` matrix;
otherwise `rows` is the outer length, `cols` the first row's length, and the
data is installed unchanged, with no validation of the remaining row lengths. -/
def Matrix.fromVec {T : Type} [Inhabited T] (other : List (List T)) : Matrix T :=
  match other with
  | [] => Matrix.new 0 0
  | r :: rest => { m := r :: rest, rows := (r :: rest).length, cols := r.length }

/-- Embeds `Matrix::transpose(&mut self)`: builds a fresh `cols × rows`
buffer whose entry `(i, j)` is `self.m[j][i]`, installs it, and swaps the
`rows`/`cols` fields. Returned as the new value of the mutated receiver;
`none` models the panic when some `self.m[j][i]` is out of bounds. -/
def Matrix.transpose {T : Type} (a : Matrix T) : Option (Matrix T) := do
  let tmp ← optionMap (fun i => optionMap (fun j => idx2 a.m j i) (List.range a.rows))
    (List.range a.cols)
  pure { m := tmp, rows := a.cols, cols := a.rows }

/-- Embeds `Matrix::slice(&self, range)`: copies row `i` of `self` for each
`i` of the index sequence, in order, then rebuilds a matrix through the
`From` path; `none` models the out-of-bounds panic of `self.m[i]`. -/
def Matrix.slice {T : Type} [Inhabited T] (a : Matrix T) (range : List Nat) :
    Option (Matrix T) := do
  let tmp ← optionMap (fun i => a.m[i]?) range
  pure (Matrix.fromVec tmp)

/-- Embeds `impl Add<&Matrix<T>> for &Matrix<T>` (by-reference addition):
asserts equal shapes, clones `self`, then for each `i`, `j` performs
`matrix.m[i][j] += other.m[i][j].clone()`. -/
def Matrix.addRef {T : Type} [Add T] (a b : Matrix T) : Option (Matrix T) :=
  if a.rows = b.rows ∧ a.cols = b.cols then do
    let mfinal ← optionFoldl (fun acc i =>
      optionFoldl (fun acc2 j => do
        let x ← idx2 acc2 i j
        let y ← idx2 b.m i j
        pure (set2 acc2 i j (x + y))) acc (List.range a.cols)) a.m (List.range a.rows)
    pure { m := mfinal, rows := a.rows, cols := a.cols }
  else none

/-- Embeds `impl Add for Matrix<T>` (by-value addition): asserts equal
shapes, then accumulates `other`'s entries into `self`'s own storage in
place with the same double loop, returning `self`. In the pure embedding
mutating the consumed operand and mutating a clone coincide, so the body
matches `Matrix.addRef` with the clone elided. -/
def Matrix.addVal {T : Type} [Add T] (a b : Matrix T) : Option (Matrix T) :=
  if a.rows = b.rows ∧ a.cols = b.cols then do
    let mfinal ← optionFoldl (fun acc i =>
      optionFoldl (fun acc2 j => do
        let x ← idx2 acc2 i j
        let y ← idx2 b.m i j
        pure (set2 acc2 i j (x + y))) acc (List.range a.cols)) a.m (List.range a.rows)
    pure { m := mfinal, rows := a.rows, cols := a.cols }
  else none

/-- Embeds `impl Mul<&Matrix<T>> for &Matrix<T>` (by-reference
multiplication): asserts `self.cols == rhs.rows`, allocates a default-filled
`self.rows × rhs.cols` matrix, and assigns every cell `(i, j)` exactly once
with the accumulation `entry += self.m[i][k] * rhs.m[k][j]` over
`k in 0..self.cols`, starting from `T::default()`. The loop reads only the
two operands, so the result is built here cell by cell in the same order. -/
def Matrix.mulRef {T : Type} [Inhabited T] [Add T] [Mul T] (a b : Matrix T) :
    Option (Matrix T) :=
  if a.cols = b.rows then do
    let tmp ← optionMap (fun i =>
      optionMap (fun j =>
        optionFoldl (fun e k => do
          let x ← idx2 a.m i k
          let y ← idx2 b.m k j
          pure (e + x * y)) default (List.range a.cols))
        (List.range b.cols)) (List.range a.rows)
    pure { m := tmp, rows := a.rows, cols := b.cols }
  else none

/-- Embeds `impl Mul for Matrix<T>` (by-value multiplication), which
delegates to the by-reference implementation on `(&self) * (&rhs)`. -/
def Matrix.mulVal {T : Type} [Inhabited T] [Add T] [Mul T] (a b : Matrix T) :
    Option (Matrix T) :=
  Matrix.mulRef a b

/-- Embeds `impl Into<Vec<Vec<T>>> for Matrix<T>`: hands back the backing
storage unchanged. -/
def Matrix.into {T : Type} (a : Matrix T) : List (List T) :=
  a.m

/-- Embeds `impl Index<(usize, usize)> for Matrix<T>`: `&self.m[ix.0][ix.1]`,
with `none` modelling the out-of-bounds panic. -/
def Matrix.index {T : Type} (a : Matrix T) (ix : Nat × Nat) : Option T :=
  idx2 a.m ix.1 ix.2

/-- The rectangular invariant of the spec's data model: the outer length is
`rows` and every row has exactly `cols` elements. -/
def Matrix.wellFormed {T : Type} (a : Matrix T) : Prop :=
  a.m.length = a.rows ∧ ∀ r ∈ a.m, r.length = a.cols

instance Matrix.wellFormedDecidable {T : Type} (a : Matrix T) :
    Decidable a.wellFormed := by
  unfold Matrix.wellFormed
  exact inferInstance

/-- Total entry accessor used to state properties: entry `(i, j)` of the
backing data, with `default` out of range (only ever used in range). -/
def Matrix.ent {T : Type} [Inhabited T] (a : Matrix T) (i j : Nat) : T :=
  (a.m.getD i []).getD j default

/-- Rectangular matrix literally given by an entry function; used to state
and prove characterizations of the operations. -/
def mkMatrix {T : Type} (r c : Nat) (g : Nat → Nat → T) : Matrix T :=
  { m := (List.range r).map fun i => (List.range c).map fun j => g i j,
    rows := r, cols := c }

end MatrixSimple

namespace MatrixSimple

/-!
Supporting lemmas: evaluation of the `Option`-monad loops, the entry
accessor on well-formed matrices, and characterizations of `transpose` and
`mulRef` on rectangular inputs.
-/


theorem optionMap_eq_some {α β : Type} {f : α → Option β} {g : α → β} :
    ∀ {l : List α}, (∀ a ∈ l, f a = some (g a)) → optionMap f l = some (l.map g)
  | [], _ => rfl
  | a :: rest, h => by
    have ha : f a = some (g a) := h a (List.mem_cons_self a rest)
    have hrest : optionMap f rest = some (rest.map g) :=
      optionMap_eq_some fun x hx => h x (List.mem_cons_of_mem a hx)
    simp [optionMap, ha, hrest, List.map_cons]

theorem optionMap_eq_none {α β : Type} {f : α → Option β} :
    ∀ {l : List α}, (∃ a ∈ l, f a = none) → optionMap f l = none := by
  intro l
  induction l with
  | nil => rintro ⟨a, ha, _⟩; exact absurd ha (List.not_mem_nil a)
  | cons a rest ih =>
    rintro ⟨x, hx, hfx⟩
    rcases List.mem_cons.mp hx with h | h
    · subst h; simp [optionMap, hfx]
    · cases hfa : f a with
      | none => simp [optionMap, hfa]
      | some b => simp [optionMap, hfa, ih ⟨x, h, hfx⟩]

theorem optionFoldl_eq_foldl {α β : Type} {f : β → α → Option β} {g : β → α → β} :
    ∀ {l : List α} {b : β}, (∀ c a, a ∈ l → f c a = some (g c a)) →
      optionFoldl f b l = some (l.foldl g b)
  | [], _, _ => rfl
  | a :: rest, b, h => by
    have ha : f b a = some (g b a) := h b a (List.mem_cons_self a rest)
    have hrest : optionFoldl f (g b a) rest = some (rest.foldl g (g b a)) :=
      optionFoldl_eq_foldl fun c x hx => h c x (List.mem_cons_of_mem a hx)
    simp [optionFoldl, ha, hrest, List.foldl_cons]

theorem mkMatrix_rows {T : Type} (r c : Nat) (g : Nat → Nat → T) :
    (mkMatrix r c g).rows = r := rfl

theorem mkMatrix_cols {T : Type} (r c : Nat) (g : Nat → Nat → T) :
    (mkMatrix r c g).cols = c := rfl

theorem mkMatrix_wellFormed {T : Type} (r c : Nat) (g : Nat → Nat → T) :
    (mkMatrix r c g).wellFormed := by
  constructor
  · simp [mkMatrix]
  · intro row hrow
    simp only [mkMatrix, List.mem_map] at hrow
    obtain ⟨i, _, hi⟩ := hrow
    simp [← hi, mkMatrix]

theorem getElem?_mkMatrix {T : Type} {r c : Nat} {g : Nat → Nat → T} {i : Nat} (hi : i < r) :
    (mkMatrix r c g).m[i]? = some ((List.range c).map fun j => g i j) := by
  simp [mkMatrix, List.getElem?_map, List.getElem?_range, hi]

theorem idx2_mkMatrix {T : Type} {r c : Nat} {g : Nat → Nat → T} {i j : Nat}
    (hi : i < r) (hj : j < c) :
    idx2 (mkMatrix r c g).m i j = some (g i j) := by
  simp [idx2, getElem?_mkMatrix hi, List.getElem?_map, List.getElem?_range, hj]

theorem ent_mkMatrix {T : Type} [Inhabited T] {r c : Nat} {g : Nat → Nat → T} {i j : Nat}
    (hi : i < r) (hj : j < c) :
    (mkMatrix r c g).ent i j = g i j := by
  simp [Matrix.ent, List.getD_eq_getElem?_getD, mkMatrix, List.getElem?_map,
    List.getElem?_range, hi, hj]

theorem idx2_eq_ent {T : Type} [Inhabited T] {a : Matrix T} (wf : a.wellFormed)
    {i j : Nat} (hi : i < a.rows) (hj : j < a.cols) :
    idx2 a.m i j = some (a.ent i j) := by
  obtain ⟨hlen, hrows⟩ := wf
  have hi2 : i < a.m.length := hlen ▸ hi
  have hrow : a.m[i]? = some a.m[i] := List.getElem?_eq_getElem hi2
  have hmem : a.m[i] ∈ a.m := List.getElem_mem hi2
  have hj2 : j < (a.m[i]).length := (hrows _ hmem) ▸ hj
  simp [idx2, Matrix.ent, hrow, List.getD_eq_getElem?_getD, List.getElem?_eq_getElem hj2]

theorem range_map_getD {α : Type} (l : List α) (d : α) :
    ((List.range l.length).map fun j => l.getD j d) = l := by
  apply List.ext_getElem?
  intro n
  by_cases h : n < l.length
  · simp [List.getElem?_map, List.getElem?_range, h, List.getD_eq_getElem?_getD,
      List.getElem?_eq_getElem h]
  · push_neg at h
    have h1 : l[n]? = none := List.getElem?_eq_none_iff.mpr h
    have h2 : ((List.range l.length).map fun j => l.getD j d)[n]? = none := by
      apply List.getElem?_eq_none_iff.mpr
      simpa using h
    rw [h1, h2]

theorem wellFormed_eta {T : Type} [Inhabited T] {a : Matrix T} (wf : a.wellFormed) :
    a = mkMatrix a.rows a.cols a.ent := by
  obtain ⟨hlen, hrows⟩ := wf
  cases a with
  | mk mm rows cols =>
    simp only at hlen hrows
    simp only [mkMatrix, Matrix.mk.injEq]
    refine ⟨?_, trivial, trivial⟩
    apply List.ext_getElem?
    intro n
    by_cases h : n < rows
    · have hn : n < mm.length := hlen ▸ h
      have hrowlen : (mm[n]).length = cols := hrows _ (List.getElem_mem hn)
      rw [List.getElem?_eq_getElem hn, List.getElem?_map]
      simp only [List.getElem?_range, h, if_pos, Option.map_some']
      have hent : ∀ j : Nat, Matrix.ent ⟨mm, rows, cols⟩ n j = (mm[n]).getD j default := by
        intro j
        simp only [Matrix.ent]
        rw [List.getD_eq_getElem?_getD mm n, List.getElem?_eq_getElem hn]
        rfl
      rw [show ((List.range cols).map fun j => Matrix.ent ⟨mm, rows, cols⟩ n j)
            = (List.range cols).map fun j => (mm[n]).getD j default from by
          exact List.map_congr_left fun j _ => hent j]
      rw [← hrowlen, range_map_getD]
    · push_neg at h
      have h1 : mm[n]? = none := List.getElem?_eq_none_iff.mpr (hlen ▸ h)
      have h2 : ((List.range rows).map fun i =>
          (List.range cols).map fun j => Matrix.ent ⟨mm, rows, cols⟩ i j)[n]? = none := by
        apply List.getElem?_eq_none_iff.mpr
        simpa using h
      rw [h1, h2]

theorem mkMatrix_congr {T : Type} {r c : Nat} {g g2 : Nat → Nat → T}
    (h : ∀ i < r, ∀ j < c, g i j = g2 i j) : mkMatrix r c g = mkMatrix r c g2 := by
  simp only [mkMatrix, Matrix.mk.injEq]
  refine ⟨?_, trivial, trivial⟩
  apply List.map_congr_left
  intro i hi
  apply List.map_congr_left
  intro j hj
  exact h i (List.mem_range.mp hi) j (List.mem_range.mp hj)

theorem transpose_wellFormed_eq {T : Type} [Inhabited T] {a : Matrix T} (wf : a.wellFormed) :
    a.transpose = some (mkMatrix a.cols a.rows fun i j => a.ent j i) := by
  have houter : optionMap (fun i => optionMap (fun j => idx2 a.m j i) (List.range a.rows))
      (List.range a.cols)
      = some ((List.range a.cols).map fun i => (List.range a.rows).map fun j => a.ent j i) := by
    apply optionMap_eq_some
    intro i hi
    apply optionMap_eq_some
    intro j hj
    exact idx2_eq_ent wf (List.mem_range.mp hj) (List.mem_range.mp hi)
  unfold Matrix.transpose
  rw [houter]
  rfl

theorem mulRef_wellFormed_eq {T : Type} [Inhabited T] [Add T] [Mul T] {a b : Matrix T}
    (wfa : a.wellFormed) (wfb : b.wellFormed) (hc : a.cols = b.rows) :
    a.mulRef b = some (mkMatrix a.rows b.cols fun i j =>
      (List.range a.cols).foldl (fun e k => e + a.ent i k * b.ent k j) default) := by
  have houter : optionMap (fun i =>
      optionMap (fun j =>
        optionFoldl (fun e k => do
          let x ← idx2 a.m i k
          let y ← idx2 b.m k j
          pure (e + x * y)) default (List.range a.cols))
        (List.range b.cols)) (List.range a.rows)
      = some ((List.range a.rows).map fun i => (List.range b.cols).map fun j =>
          (List.range a.cols).foldl (fun e k => e + a.ent i k * b.ent k j) default) := by
    apply optionMap_eq_some
    intro i hi
    apply optionMap_eq_some
    intro j hj
    apply optionFoldl_eq_foldl
    intro e k hk
    rw [idx2_eq_ent wfa (List.mem_range.mp hi) (List.mem_range.mp hk)]
    rw [idx2_eq_ent wfb (hc ▸ List.mem_range.mp hk) (List.mem_range.mp hj)]
    rfl
  unfold Matrix.mulRef
  rw [if_pos hc, houter]
  rfl

theorem foldl_add_eq_sum {M : Type} [AddCommMonoid M] (f : Nat → M) :
    ∀ (n : Nat) (z : M),
      (List.range n).foldl (fun e k => e + f k) z = z + ∑ k in Finset.range n, f k
  | 0, z => by simp
  | n + 1, z => by
    rw [List.range_succ, List.foldl_append, foldl_add_eq_sum f n z]
    simp [Finset.sum_range_succ, add_assoc]

theorem dot_assoc {R : Type} [NonUnitalSemiring R] (p q : Nat)
    (x : Nat → Nat → R) (y : Nat → R) :
    ∑ l in Finset.range q, (∑ k in Finset.range p, x k l) * y l
      = ∑ k in Finset.range p, ∑ l in Finset.range q, x k l * y l := by
  simp_rw [Finset.sum_mul]
  exact Finset.sum_comm

theorem fromVec_m {T : Type} [Inhabited T] (v : List (List T)) :
    (Matrix.fromVec v).m = v := by
  cases v <;> rfl

theorem mkMatrix_transpose_inv {T : Type} [Inhabited T] {a : Matrix T} (wf : a.wellFormed) :
    mkMatrix a.rows a.cols
        (fun i j => (mkMatrix a.cols a.rows fun i2 j2 => a.ent j2 i2).ent j i) = a := by
  have h2 : ∀ i < a.rows, ∀ j < a.cols,
      (mkMatrix a.cols a.rows fun i2 j2 => a.ent j2 i2).ent j i = a.ent i j := by
    intro i hi j hj
    exact ent_mkMatrix hj hi
  calc mkMatrix a.rows a.cols _ = mkMatrix a.rows a.cols a.ent := mkMatrix_congr h2
    _ = a := (wellFormed_eta wf).symm

theorem dot3_assoc {R : Type} [NonUnitalSemiring R] (p q : Nat)
    (x : Nat → R) (y : Nat → Nat → R) (z : Nat → R) :
    ∑ l in Finset.range q, (∑ k in Finset.range p, x k * y k l) * z l
      = ∑ k in Finset.range p, x k * ∑ l in Finset.range q, y k l * z l := by
  rw [dot_assoc p q (fun k l => x k * y k l) z]
  apply Finset.sum_congr rfl
  intro k _
  rw [Finset.mul_sum]
  exact Finset.sum_congr rfl fun l _ => mul_assoc _ _ _

/-!
The claim theorems. Sentences of the design that fail on the code as
literally quantified are accompanied by a concrete counterexample and an
amended, invariant-guarded theorem.
-/

/-- Claim C1 (amended): for rectangular matrices `A`, `B` with `A.cols = B.rows`, the
by-reference multiplication returns a matrix of shape `A.rows × B.cols` whose
entry `(i, j)` is the left fold, starting from `T::default()`, of
`A[i][k] * B[k][j]` over `k` in `0..A.cols` in increasing order. -/
theorem mulRef_spec {T : Type} [Inhabited T] [Add T] [Mul T] (a b : Matrix T)
    (wfa : a.wellFormed) (wfb : b.wellFormed) (hc : a.cols = b.rows) :
    ∃ p, a.mulRef b = some p ∧ p.rows = a.rows ∧ p.cols = b.cols ∧ p.wellFormed ∧
      ∀ i j, i < a.rows → j < b.cols → p.index (i, j) =
        some ((List.range a.cols).foldl (fun e k => e + a.ent i k * b.ent k j) default) := by
  refine ⟨_, mulRef_wellFormed_eq wfa wfb hc, rfl, rfl, mkMatrix_wellFormed _ _ _, ?_⟩
  intro i j hi hj
  show idx2 _ i j = _
  rw [idx2_mkMatrix hi hj]

theorem mulRef_spec_witness :
    ∃ p, (Matrix.fromVec [[2,1],[-1,1]] : Matrix Int).mulRef (Matrix.fromVec [[-1,3],[2,2]])
        = some p ∧ p.rows = 2 ∧ p.cols = 2 ∧ p.wellFormed ∧
      ∀ i j, i < 2 → j < 2 → p.index (i, j) =
        some ((List.range 2).foldl (fun e k =>
          e + (Matrix.fromVec [[2,1],[-1,1]] : Matrix Int).ent i k *
            (Matrix.fromVec [[-1,3],[2,2]] : Matrix Int).ent k j) default) :=
  mulRef_spec _ _ (by decide) (by decide) (by decide)

theorem mul_claim_counterexample :
    (Matrix.fromVec [[1,2],[3]] : Matrix Int).cols
        = (Matrix.fromVec [[1,0],[0,1]] : Matrix Int).rows ∧
      (Matrix.fromVec [[1,2],[3]] : Matrix Int).mulRef (Matrix.fromVec [[1,0],[0,1]]) = none := by
  decide

/-- Claim C2: transposing a rectangular matrix swaps the `rows`/`cols` fields and
the entry at `(i, j)` of the result is the old entry at `(j, i)`. -/
theorem transpose_spec {T : Type} [Inhabited T] (a : Matrix T) (wf : a.wellFormed) :
    ∃ t, a.transpose = some t ∧ t.rows = a.cols ∧ t.cols = a.rows ∧
      ∀ i j, i < a.cols → j < a.rows → t.index (i, j) = a.index (j, i) := by
  refine ⟨_, transpose_wellFormed_eq wf, rfl, rfl, ?_⟩
  intro i j hi hj
  show idx2 _ i j = idx2 a.m j i
  rw [idx2_mkMatrix hi hj, idx2_eq_ent wf hj hi]

theorem transpose_spec_witness :
    ∃ t, (Matrix.fromVec [[3,5,1],[2,9,-1],[3,-1,-2]] : Matrix Int).transpose = some t ∧
      t.rows = 3 ∧ t.cols = 3 ∧
      ∀ i j, i < 3 → j < 3 → t.index (i, j) =
        (Matrix.fromVec [[3,5,1],[2,9,-1],[3,-1,-2]] : Matrix Int).index (j, i) :=
  transpose_spec _ (by decide)

/-- Claim C3 (amended): on rectangular matrices, transposing twice gives back the
original matrix. -/
theorem transpose_involution {T : Type} [Inhabited T] (a : Matrix T) (wf : a.wellFormed) :
    a.transpose.bind Matrix.transpose = some a := by
  rw [transpose_wellFormed_eq wf]
  show (mkMatrix a.cols a.rows fun i j => a.ent j i).transpose = some a
  rw [transpose_wellFormed_eq (mkMatrix_wellFormed _ _ _)]
  exact congrArg some (mkMatrix_transpose_inv wf)

theorem transpose_involution_witness :
    (Matrix.fromVec [[3,5,1],[2,9,-1],[3,-1,-2]] : Matrix Int).transpose.bind Matrix.transpose
      = some (Matrix.fromVec [[3,5,1],[2,9,-1],[3,-1,-2]]) :=
  transpose_involution _ (by decide)

theorem transpose_involution_counterexample :
    ((Matrix.fromVec [[1],[2,3]] : Matrix Int).transpose).bind Matrix.transpose
      ≠ some (Matrix.fromVec [[1],[2,3]]) := by
  decide

/-- Claim C4: on equal-shaped operands the by-value (consuming, in-place) addition
returns the same result as the by-reference (cloning) addition. -/
theorem add_byValue_eq_byRef {T : Type} [Add T] (a b : Matrix T)
    (_hr : a.rows = b.rows) (_hc : a.cols = b.cols) :
    a.addVal b = a.addRef b := rfl

theorem add_byValue_eq_byRef_witness :
    (Matrix.fromVec [[1,2,3],[4,5,6],[7,8,9]] : Matrix Int).addVal
        (Matrix.fromVec [[-1,-2,-3],[4,-5,-6],[-7,0,-9]])
      = (Matrix.fromVec [[1,2,3],[4,5,6],[7,8,9]] : Matrix Int).addRef
        (Matrix.fromVec [[-1,-2,-3],[4,-5,-6],[-7,0,-9]]) :=
  add_byValue_eq_byRef _ _ (by decide) (by decide)

/-- Claim C5: `From<Vec<Vec<T>>>` returns the `0 × 0` matrix on an empty outer
vector, and otherwise installs the data unchanged with `rows` the outer
length and `cols` the first row's length, accepting ragged input without
error (the conversion is total and never inspects the other rows' lengths). -/
theorem fromVec_spec (T : Type) [Inhabited T] :
    Matrix.fromVec ([] : List (List T)) = { m := [], rows := 0, cols := 0 } ∧
    ∀ (r : List T) (rest : List (List T)),
      Matrix.fromVec (r :: rest) = { m := r :: rest, rows := rest.length + 1, cols := r.length } :=
  ⟨rfl, fun _ _ => rfl⟩

/-- Claim C6: with all indices in range, `slice` returns a matrix whose row `k` is
the source's row `i_k`, in the order given (repetition and reordering
included); with any index out of range it fails. -/
theorem slice_spec {T : Type} [Inhabited T] (a : Matrix T) (idxs : List Nat)
    (hlen : a.m.length = a.rows) :
    ((∀ i ∈ idxs, i < a.rows) →
      ∃ s, a.slice idxs = some s ∧ s.m.length = idxs.length ∧
        ∀ (k i : Nat), idxs[k]? = some i → s.m[k]? = a.m[i]?) ∧
    ((∃ i ∈ idxs, a.rows ≤ i) → a.slice idxs = none) := by
  constructor
  · intro hvalid
    have hmap : optionMap (fun i => a.m[i]?) idxs = some (idxs.map fun i => a.m.getD i []) := by
      apply optionMap_eq_some
      intro i hi
      have h2 : i < a.m.length := hlen ▸ hvalid i hi
      rw [List.getElem?_eq_getElem h2, List.getD_eq_getElem?_getD,
        List.getElem?_eq_getElem h2]
      rfl
    refine ⟨Matrix.fromVec (idxs.map fun i => a.m.getD i []), ?_, ?_, ?_⟩
    · show (optionMap (fun i => a.m[i]?) idxs).bind (fun tmp => some (Matrix.fromVec tmp)) = _
      rw [hmap]
      rfl
    · rw [fromVec_m, List.length_map]
    · intro k i hk
      have hik : i ∈ idxs := by
        rw [List.getElem?_eq_some] at hk
        obtain ⟨hklen, rfl⟩ := hk
        exact List.getElem_mem hklen
      have h2 : i < a.m.length := hlen ▸ hvalid i hik
      rw [fromVec_m, List.getElem?_map, hk, Option.map_some']
      rw [List.getD_eq_getElem?_getD, List.getElem?_eq_getElem h2]
      rfl
  · rintro ⟨i, hi, hge⟩
    have hnone : a.m[i]? = none := List.getElem?_eq_none_iff.mpr (hlen.trans_le hge)
    have hall : optionMap (fun i => a.m[i]?) idxs = none := optionMap_eq_none ⟨i, hi, hnone⟩
    show (optionMap (fun i => a.m[i]?) idxs).bind (fun tmp => some (Matrix.fromVec tmp)) = none
    rw [hall]
    rfl

theorem slice_spec_witness :
    ∃ s, (Matrix.fromVec [[1,1,2,2],[3,3,4,4],[5,5,6,6],[7,7,9,10]] : Matrix Int).slice [2,0,2]
        = some s ∧ s.m.length = 3 ∧
      ∀ (k i : Nat), ([2,0,2] : List Nat)[k]? = some i →
        s.m[k]? = (Matrix.fromVec [[1,1,2,2],[3,3,4,4],[5,5,6,6],[7,7,9,10]] : Matrix Int).m[i]? :=
  (slice_spec _ _ (by decide)).1 (by decide)

/-- Claim C7 (amended): on a rectangular matrix, indexing returns the stored
element whenever `row < rows` and `col < cols`, and fails exactly when
`row ≥ rows` or `col ≥ cols`. -/
theorem index_spec {T : Type} [Inhabited T] (a : Matrix T) (wf : a.wellFormed)
    (row col : Nat) :
    (row < a.rows → col < a.cols → a.index (row, col) = some (a.ent row col)) ∧
    (a.rows ≤ row ∨ a.cols ≤ col → a.index (row, col) = none) := by
  obtain ⟨hlen, hrows⟩ := wf
  constructor
  · intro h1 h2
    exact idx2_eq_ent ⟨hlen, hrows⟩ h1 h2
  · intro h
    by_cases hr : row < a.rows
    · have hcol : a.cols ≤ col := by
        rcases h with h | h
        · exact absurd hr (not_lt.mpr h)
        · exact h
      show idx2 a.m row col = none
      unfold idx2
      have hr2 : row < a.m.length := hlen ▸ hr
      rw [List.getElem?_eq_getElem hr2]
      have hrl : (a.m[row]).length = a.cols := hrows _ (List.getElem_mem hr2)
      have : (a.m[row])[col]? = none := List.getElem?_eq_none_iff.mpr (hrl.trans_le hcol)
      simp [this]
    · push_neg at hr
      show idx2 a.m row col = none
      unfold idx2
      rw [List.getElem?_eq_none_iff.mpr (hlen.trans_le hr)]
      rfl

theorem index_spec_witness :
    (Matrix.fromVec [[3,5,9],[2,2,7],[3,5,5]] : Matrix Int).index (1, 2) = some 7 ∧
    (Matrix.fromVec [[3,5,9],[2,2,7],[3,5,5]] : Matrix Int).index (0, 3) = none :=
  ⟨(index_spec _ (by decide) 1 2).1 (by decide) (by decide),
   (index_spec _ (by decide) 0 3).2 (Or.inr (by decide))⟩

theorem index_exact_bounds_counterexample :
    (Matrix.fromVec [[1],[2,3]] : Matrix Int).cols ≤ 1 ∧
    (Matrix.fromVec [[1],[2,3]] : Matrix Int).index (1, 1) = some 3 := by
  decide

/-- Claim C8: on shape-incompatible operands both addition forms and both
multiplication forms fail (the assertion at the top of each impl), producing
no result matrix at all. -/
theorem shape_mismatch_spec {T : Type} [Inhabited T] [Add T] [Mul T] (a b : Matrix T) :
    (¬(a.rows = b.rows ∧ a.cols = b.cols) → a.addRef b = none ∧ a.addVal b = none) ∧
    (a.cols ≠ b.rows → a.mulRef b = none ∧ a.mulVal b = none) := by
  constructor
  · intro h
    constructor
    · unfold Matrix.addRef
      rw [if_neg h]
    · unfold Matrix.addVal
      rw [if_neg h]
  · intro h
    constructor
    · unfold Matrix.mulRef
      rw [if_neg h]
    · unfold Matrix.mulVal Matrix.mulRef
      rw [if_neg h]

theorem shape_mismatch_spec_witness :
    (Matrix.fromVec [[1,2]] : Matrix Int).addRef (Matrix.fromVec [[1],[2],[3]]) = none ∧
    (Matrix.fromVec [[1,2]] : Matrix Int).addVal (Matrix.fromVec [[1],[2],[3]]) = none ∧
    (Matrix.fromVec [[1,2]] : Matrix Int).mulRef (Matrix.fromVec [[1],[2],[3]]) = none ∧
    (Matrix.fromVec [[1,2]] : Matrix Int).mulVal (Matrix.fromVec [[1],[2],[3]]) = none :=
  ⟨((shape_mismatch_spec _ _).1 (by decide)).1, ((shape_mismatch_spec _ _).1 (by decide)).2,
   ((shape_mismatch_spec _ _).2 (by decide)).1, ((shape_mismatch_spec _ _).2 (by decide)).2⟩

/-- Claim C10: converting a raw row sequence in with `From` and back out with
`Into` is the identity on the data, for every input including the empty and
ragged ones. -/
theorem fromVec_into_roundtrip {T : Type} [Inhabited T] (v : List (List T)) :
    (Matrix.fromVec v).into = v := by
  cases v <;> rfl

/-- Claim C9 (amended): for matrices satisfying the rectangular invariant,
with compatible shapes, over an element type whose arithmetic forms a
non-unital semiring with `T::default() = 0`, the multiplication of the
crate is associative. Without the invariant the law fails on reachable
ragged matrices: see the counterexample below. -/
theorem mul_assoc_spec {T : Type} [NonUnitalSemiring T] [Inhabited T]
    (hd : (default : T) = 0) (a b c : Matrix T)
    (wfa : a.wellFormed) (wfb : b.wellFormed) (wfc : c.wellFormed)
    (hab : a.cols = b.rows) (hbc : b.cols = c.rows) :
    (a.mulVal b).bind (fun p => p.mulVal c) = (b.mulVal c).bind fun q => a.mulVal q := by
  simp only [Matrix.mulVal]
  rw [mulRef_wellFormed_eq wfa wfb hab, mulRef_wellFormed_eq wfb wfc hbc]
  rw [Option.some_bind, Option.some_bind]
  rw [mulRef_wellFormed_eq (mkMatrix_wellFormed _ _ _) wfc hbc]
  rw [mulRef_wellFormed_eq wfa (mkMatrix_wellFormed _ _ _) hab]
  refine congrArg some (mkMatrix_congr ?_)
  intro i hi j hj
  simp only [mkMatrix_rows, mkMatrix_cols] at hi hj ⊢
  simp only [hd]
  rw [foldl_add_eq_sum, foldl_add_eq_sum, zero_add, zero_add]
  have hABent : ∀ l, l < b.cols →
      (mkMatrix a.rows b.cols fun i2 j2 =>
        (List.range a.cols).foldl (fun e k => e + a.ent i2 k * b.ent k j2) 0).ent i l
      = ∑ k in Finset.range a.cols, a.ent i k * b.ent k l := by
    intro l hl
    rw [ent_mkMatrix hi hl]
    rw [foldl_add_eq_sum, zero_add]
  have hBCent : ∀ k, k < b.rows →
      (mkMatrix b.rows c.cols fun i2 j2 =>
        (List.range b.cols).foldl (fun e l => e + b.ent i2 l * c.ent l j2) 0).ent k j
      = ∑ l in Finset.range b.cols, b.ent k l * c.ent l j := by
    intro k hk
    rw [ent_mkMatrix hk hj]
    rw [foldl_add_eq_sum, zero_add]
  trans (∑ l in Finset.range b.cols,
    (∑ k in Finset.range a.cols, a.ent i k * b.ent k l) * c.ent l j)
  · exact Finset.sum_congr rfl fun l hl => by rw [hABent l (Finset.mem_range.mp hl)]
  trans (∑ k in Finset.range a.cols, a.ent i k * ∑ l in Finset.range b.cols, b.ent k l * c.ent l j)
  · exact dot3_assoc _ _ _ _ _
  · exact Finset.sum_congr rfl fun k hk => by
      rw [hBCent k (lt_of_lt_of_eq (Finset.mem_range.mp hk) hab)]

theorem mul_assoc_spec_witness :
    ((Matrix.fromVec [[1,2],[3,4]] : Matrix Int).mulVal (Matrix.fromVec [[5,6],[7,8]])).bind
        (fun p => p.mulVal (Matrix.fromVec [[9,1],[2,3]]))
      = ((Matrix.fromVec [[5,6],[7,8]] : Matrix Int).mulVal (Matrix.fromVec [[9,1],[2,3]])).bind
        (fun q => (Matrix.fromVec [[1,2],[3,4]] : Matrix Int).mulVal q) :=
  mul_assoc_spec (by decide) _ _ _ (by decide) (by decide) (by decide) (by decide) (by decide)

/-- Counterexample to the unrestricted associativity claim: the ragged
`B = from([[1,2],[3]])` is reachable through the public `From` impl, the
empty-rowed `A = new(0, 2)` and the column `C = from([[5],[6]])` give
compatible shapes on both groupings, yet `(A*B)*C` completes (with zero
rows, `B`'s entries are never read) while `B*C` panics reading `B.m[1][1]`,
so the two groupings are not equal. -/
theorem mul_assoc_counterexample :
    (Matrix.new 0 2 : Matrix Int).cols = (Matrix.fromVec [[1,2],[3]] : Matrix Int).rows ∧
    (Matrix.fromVec [[1,2],[3]] : Matrix Int).cols
      = (Matrix.fromVec [[5],[6]] : Matrix Int).rows ∧
    ((Matrix.new 0 2 : Matrix Int).mulVal (Matrix.fromVec [[1,2],[3]])).bind
        (fun p => p.mulVal (Matrix.fromVec [[5],[6]]))
      ≠ ((Matrix.fromVec [[1,2],[3]] : Matrix Int).mulVal (Matrix.fromVec [[5],[6]])).bind
        (fun q => (Matrix.new 0 2 : Matrix Int).mulVal q) := by
  decide

end MatrixSimple
